import Mathlib

set_option maxHeartbeats 2000000
set_option maxRecDepth 4000

namespace PyUTAU

/- Shallow embedding of the synthesis core of the embedded_utau package
   (synthesis_engine.py and voice_library.py).  Audio buffers are modelled
   as lists of rationals; where IEEE non-finite values are relevant the
   carrier type PFloat is used instead. -/

/-- All-zero buffer, np.zeros(n). -/
def zeros (n : ℕ) : List ℚ := List.replicate n 0

/-- Truncation toward zero, the behaviour of the Python int() conversion and
of the numpy float-to-integer astype casts on finite values. -/
def truncQ (q : ℚ) : ℤ := if 0 ≤ q then ⌊q⌋ else ⌈q⌉

/-! ### Master mixdown loop (SynthesisEngine.synthesize_project, lines 58-107) -/

/-- View of a Track as consumed by the mixdown loop: the two routing flags,
whether its voice library path is set and resolves (lines 80-91), and the
audio produced by synthesize_track followed by apply_track_mix, abstracted
here because the mixdown claim is about routing only. -/
structure MTrack where
  muted : Bool
  solo : Bool
  has_library : Bool
  audio : List ℚ

/-- Line 100-101: master_output[:min_len] += track_audio[:min_len]. -/
def addTruncated (master track_audio : List ℚ) : List ℚ :=
  let k := min master.length track_audio.length
  (List.zipWith (fun a b => a + b) (master.take k) (track_audio.take k)) ++ master.drop k

/-- Line 73: any(t.solo for t in project.tracks if not t.muted). -/
def any_unmuted_solo (tracks : List MTrack) : Bool :=
  tracks.any (fun t => !t.muted && t.solo)

/-- Summing loop of SynthesisEngine.synthesize_project (lines 64-101); the
master_processing stage that runs afterwards is modelled separately below.
The skip conditions are transliterated from lines 69-91: a muted track is
skipped; a track is skipped when it is solo and no non-muted track is solo;
a track whose library is missing or fails to load is skipped. -/
def synthesize_project_mix (total_samples : ℕ) (tracks : List MTrack) : List ℚ :=
  tracks.foldl (fun master t =>
    if t.muted then master
    else if t.solo && !(any_unmuted_solo tracks) then master
    else if !t.has_library then master
    else addTruncated master t.audio) (zeros total_samples)

/-! ### Render cache (SynthesisEngine.synthesize_note_safe, lines 227-230) -/

/-- Python dict assignment d[k] = v: an existing key keeps its position in
insertion order and gets the new value, a new key is appended at the end. -/
def dict_set {K V : Type} [DecidableEq K] (d : List (K × V)) (k : K) (v : V) :
    List (K × V) :=
  if d.any (fun p => decide (p.1 = k)) then
    d.map (fun p => if p.1 = k then (k, v) else p)
  else d ++ [(k, v)]

/-- Lines 228-230: if len(cache) > 100 then pop(next(iter(cache))) -- which
removes the insertion-order-oldest entry -- then store the new entry. -/
def cache_store {K V : Type} [DecidableEq K] (cache : List (K × V)) (k : K) (v : V) :
    List (K × V) :=
  let c := if 100 < cache.length then cache.tail else cache
  dict_set c k v

/-- Cache contents after 101 renders with distinct fingerprints (keys 0..100),
starting from an empty cache. -/
def c2_cache_101 : List (ℕ × ℕ) :=
  (List.range 101).foldl (fun c k => cache_store c k 0) []

/-- Cache contents after 102 renders with distinct fingerprints (keys 0..101). -/
def c2_cache_102 : List (ℕ × ℕ) :=
  (List.range 102).foldl (fun c k => cache_store c k 0) []

/-! ### IEEE-style carrier for buffers that can hold non-finite values -/

/-- A double-precision value as far as the embedded operations distinguish
them: a finite value (modelled exactly as a rational), NaN, or an infinity. -/
inductive PFloat where
  | fin (q : ℚ)
  | nan
  | inf
  | ninf
deriving DecidableEq

/-- IEEE absolute value (np.abs). -/
def pAbs : PFloat → PFloat
  | .fin q => .fin |q|
  | .nan => .nan
  | .inf => .inf
  | .ninf => .inf

/-- IEEE greater-than: any comparison involving NaN is false. -/
def pGt : PFloat → PFloat → Bool
  | .nan, _ => false
  | _, .nan => false
  | .fin a, .fin b => decide (b < a)
  | .inf, .inf => false
  | .inf, _ => true
  | _, .inf => false
  | .ninf, _ => false
  | .fin _, .ninf => true

/-- IEEE division for the cases the embedded code can reach. -/
def pDiv : PFloat → PFloat → PFloat
  | .nan, _ => .nan
  | _, .nan => .nan
  | .fin a, .fin b =>
      if b = 0 then (if a = 0 then .nan else if 0 < a then .inf else .ninf)
      else .fin (a / b)
  | .fin _, .inf => .fin 0
  | .fin _, .ninf => .fin 0
  | .inf, .fin b => if 0 ≤ b then .inf else .ninf
  | .ninf, .fin b => if 0 ≤ b then .ninf else .inf
  | .inf, .inf => .nan
  | .inf, .ninf => .nan
  | .ninf, .inf => .nan
  | .ninf, .ninf => .nan

/-- IEEE multiplication by a finite constant. -/
def pMulQ : PFloat → ℚ → PFloat
  | .fin a, c => .fin (a * c)
  | .nan, _ => .nan
  | .inf, c => if c = 0 then .nan else if 0 < c then .inf else .ninf
  | .ninf, c => if c = 0 then .nan else if 0 < c then .ninf else .inf

/-- np.maximum of two values; NaN propagates (np.max reduces with this). -/
def pMax : PFloat → PFloat → PFloat
  | .nan, _ => .nan
  | _, .nan => .nan
  | .fin a, .fin b => .fin (max a b)
  | .inf, _ => .inf
  | _, .inf => .inf
  | .ninf, y => y
  | x, .ninf => x

/-! ### Audio export (SynthesisEngine.export_audio, lines 503-520) -/

/-- Largest finite double, np.finfo(float64).max, exactly. -/
def maxFloat : ℚ := (2 ^ 53 - 1) * 2 ^ 971

/-- np.nan_to_num with default arguments: NaN becomes 0, the infinities
become the extreme finite doubles (line 507). -/
def nan_to_num : PFloat → ℚ
  | .fin q => q
  | .nan => 0
  | .inf => maxFloat
  | .ninf => -maxFloat

/-- np.clip(audio_data, -1.0, 1.0) applied pointwise (line 508). -/
def export_clip (q : ℚ) : ℚ := max (-1) (min 1 q)

/-- Two-complement wrap of the astype(np.int16) conversion. -/
def toInt16 (n : ℤ) : ℤ := (n + 32768) % 65536 - 32768

/-- SynthesisEngine.export_audio, lines 506-511: nan_to_num, clip to [-1,1],
scale by 32767 and cast to int16 (a truncating conversion); the wavfile
write of the resulting integer buffer is outside the core. -/
def export_audio (a : List PFloat) : List ℤ :=
  let a1 := a.map nan_to_num
  let a2 := a1.map export_clip
  a2.map (fun x => toInt16 (truncQ (x * 32767)))

/-! ### Limiter and final normalization (SynthesisEngine, lines 160-191, 488-501) -/

/-- Pointwise action of SynthesisEngine.limiter (lines 488-501): a sample
whose magnitude exceeds 0.9 is divided by peak/0.9, others pass through. -/
def limiter_point (x : PFloat) : PFloat :=
  if pGt (pAbs x) (.fin (9/10)) then pDiv x (pDiv (pAbs x) (.fin (9/10))) else x

/-- SynthesisEngine.limiter applied to a buffer. -/
def limiter (a : List PFloat) : List PFloat := a.map limiter_point

/-- np.max(np.abs(a)) (line 181); np.max propagates NaN.  np.max raises on an
empty buffer, but master_processing returns early on those (line 162), so the
value returned here for [] is immaterial. -/
def npMaxAbs (a : List PFloat) : PFloat :=
  match a.map pAbs with
  | [] => .fin 0
  | h :: t => t.foldl pMax h

/-- Final normalization stage of master_processing (lines 180-184): when the
absolute maximum is positive, divide by it and scale to the 0.9 target. -/
def normalize_stage (a : List PFloat) : List PFloat :=
  let mv := npMaxAbs a
  if pGt mv (.fin 0) then a.map (fun x => pMulQ (pDiv x mv) (9/10)) else a

/-- Stages 4 and 5 of master_processing: limiter then final normalization. -/
def master_limit_normalize (a : List PFloat) : List PFloat :=
  normalize_stage (limiter a)

/-! ## Claim theorems: C1, C2, C3, C6 -/

/-- C1: evaluation of the mixdown loop at the failing input.  Two non-muted
tracks, the first with solo set, each contributing the one-sample buffer [1]:
the spec (and the inline comment at line 74) require only the soloed track to
contribute, giving [1], but the code sums both and yields [2].  The solo skip
at line 73 can never fire: it requires the track itself to be solo and
non-muted while no non-muted track is solo, a contradiction. -/
theorem C1_solo_ignored :
    synthesize_project_mix 1
      [⟨false, true, true, [1]⟩, ⟨false, false, true, [1]⟩] = [2] ∧
    ¬ synthesize_project_mix 1
      [⟨false, true, true, [1]⟩, ⟨false, false, true, [1]⟩] = [1] := by
  have h : synthesize_project_mix 1
      [⟨false, true, true, [1]⟩, ⟨false, false, true, [1]⟩] = [2] := by
    simp [synthesize_project_mix, any_unmuted_solo, addTruncated, zeros]
    norm_num
  refine ⟨h, ?_⟩
  rw [h]
  intro hc
  have : (2 : ℚ) = 1 := by injection hc
  norm_num at this

/-- C2 counterexample: inserting 101 distinct fingerprints into an empty
cache leaves 101 entries resident, not 100, and the first-inserted key is
still present -- the claimed capacity of 100 with eviction on the 101st
insertion does not hold (eviction fires only once more than 100 entries are
already resident). -/
theorem C2_counterexample :
    c2_cache_101.length = 101 ∧ c2_cache_101.lookup 0 = some 0 ∧
    ¬ c2_cache_101.length = 100 := by
  decide

/-- C2 amended: the render cache holds at most 101 entries; inserting when
more than 100 entries are resident first evicts the insertion-order-oldest
entry.  After 101 renders with distinct fingerprints all 101 are resident and
the first-inserted key is still present; the 102nd distinct insertion evicts
the first-inserted key, leaving 101 resident. -/
theorem C2_cache_bound_amended :
    (∀ (c : List (ℕ × ℕ)) (k v : ℕ), c.length ≤ 101 →
      (cache_store c k v).length ≤ 101) ∧
    c2_cache_101.length = 101 ∧ (c2_cache_101.lookup 0).isSome = true ∧
    c2_cache_102.length = 101 ∧ c2_cache_102.lookup 0 = none := by
  refine ⟨?_, by decide, by decide, by decide, by decide⟩
  intro c k v h
  unfold cache_store dict_set
  by_cases h100 : 100 < c.length
  · simp only [h100, if_true]
    have ht : c.tail.length = c.length - 1 := c.length_tail
    by_cases hk : c.tail.any (fun p => decide (p.1 = k))
    · simp [hk, ht]; omega
    · simp [hk, ht]; omega
  · simp only [h100, if_false]
    by_cases hk : c.any (fun p => decide (p.1 = k))
    · simp [hk]; omega
    · simp [hk]; omega

/-- C2 witness for the amended bound at a concrete cache. -/
theorem C2_cache_bound_amended_witness :
    (cache_store ([] : List (ℕ × ℕ)) 0 0).length ≤ 101 :=
  C2_cache_bound_amended.1 [] 0 0 (by decide)

/-- C3 counterexample: the exported integer sample is the truncation, not
the rounding, of the clamped sample times 32767 -- at input 1/2 the code
produces 16383 while round gives 16384 -- and a positive-infinite input is
exported as 32767, not as round(0 x 32767) = 0 as the non-finite-to-zero
reading of the claim requires. -/
theorem C3_counterexample :
    export_audio [PFloat.fin (1/2)] = [16383] ∧
    round ((1 : ℚ)/2 * 32767) = 16384 ∧
    export_audio [PFloat.inf] = [32767] := by
  have hclip_half : export_clip (nan_to_num (PFloat.fin (1/2))) = 1/2 := by
    simp [export_clip, nan_to_num]
    norm_num
  have hclip_inf : export_clip (nan_to_num PFloat.inf) = 1 := by
    have h1 : (1 : ℚ) ≤ maxFloat := by norm_num [maxFloat]
    simp [export_clip, nan_to_num, min_eq_left h1]
  refine ⟨?_, ?_, ?_⟩
  · simp only [export_audio, List.map_cons, List.map_nil, hclip_half]
    have ht : truncQ ((1 : ℚ)/2 * 32767) = 16383 := by
      rw [truncQ, if_pos (by norm_num)]
      exact Int.floor_eq_iff.mpr (by norm_num)
    rw [ht]
    norm_num [toInt16]
  · rw [round_eq]
    exact Int.floor_eq_iff.mpr (by norm_num)
  · simp only [export_audio, List.map_cons, List.map_nil, hclip_inf]
    have ht : truncQ ((1 : ℚ) * 32767) = 32767 := by
      rw [truncQ, if_pos (by norm_num)]
      exact Int.floor_eq_iff.mpr (by norm_num)
    rw [ht]
    norm_num [toInt16]

/-- C3 amended: export first maps NaN to 0 and the infinities to the extreme
finite doubles, then clamps to [-1,1], then converts each sample by
truncation toward zero of x times 32767; every exported integer equals that
truncation of the clamped value and lies in [-32767, 32767]. -/
theorem C3_export_amended :
    (∀ (a : List PFloat),
      export_audio a = a.map (fun x => truncQ (export_clip (nan_to_num x) * 32767))) ∧
    (∀ (a : List PFloat) (y : ℤ), y ∈ export_audio a → -32767 ≤ y ∧ y ≤ 32767) := by
  have clip_bounds : ∀ q : ℚ, -1 ≤ export_clip q ∧ export_clip q ≤ 1 := by
    intro q
    unfold export_clip
    constructor
    · exact le_max_left _ _
    · rcases le_total 1 q with h | h
      · simp [min_eq_left h]
      · rcases le_total (-1) q with h2 | h2
        · rw [min_eq_right h, max_eq_right h2]; exact h
        · simp [max_eq_left, h2]
  have trunc_bounds : ∀ q : ℚ, -1 ≤ q → q ≤ 1 →
      -32767 ≤ truncQ (q * 32767) ∧ truncQ (q * 32767) ≤ 32767 := by
    intro q h1 h2
    unfold truncQ
    by_cases h0 : 0 ≤ q * 32767
    · simp only [h0, if_true]
      constructor
      · calc (-32767 : ℤ) ≤ 0 := by norm_num
          _ ≤ ⌊q * 32767⌋ := Int.le_floor.mpr (by exact_mod_cast h0)
      · have hle : q * 32767 ≤ 32767 := by nlinarith
        have := Int.floor_le_floor (α := ℚ) hle
        rw [show ((32767 : ℚ)) = (((32767 : ℤ)) : ℚ) by norm_num, Int.floor_intCast] at this
        exact this
    · simp only [h0, if_false]
      push_neg at h0
      constructor
      · have hle : (-32767 : ℚ) ≤ q * 32767 := by nlinarith
        have := Int.ceil_le_ceil (α := ℚ) hle
        rw [show ((-32767 : ℚ)) = (((-32767 : ℤ)) : ℚ) by norm_num, Int.ceil_intCast] at this
        exact this
      · have := Int.ceil_le_ceil (α := ℚ) h0.le
        rw [Int.ceil_zero] at this
        omega
  have wrap_id : ∀ n : ℤ, -32767 ≤ n → n ≤ 32767 → toInt16 n = n := by
    intro n hlo hhi
    unfold toInt16
    have h1 : (0 : ℤ) ≤ n + 32768 := by omega
    have h2 : n + 32768 < 65536 := by omega
    rw [Int.emod_eq_of_lt h1 h2]
    omega
  constructor
  · intro a
    unfold export_audio
    simp only [List.map_map]
    apply List.map_congr_left
    intro x _
    have hb := clip_bounds (nan_to_num x)
    have ht := trunc_bounds _ hb.1 hb.2
    exact wrap_id _ ht.1 ht.2
  · intro a y hy
    unfold export_audio at hy
    simp only [List.map_map, List.mem_map] at hy
    obtain ⟨x, _, hx⟩ := hy
    have hb := clip_bounds (nan_to_num x)
    have ht := trunc_bounds _ hb.1 hb.2
    have := wrap_id _ ht.1 ht.2
    simp only [Function.comp] at hx
    rw [← hx, this]
    exact ht

/-- C3 witness for the amended range statement at a concrete buffer. -/
theorem C3_export_amended_witness :
    -32767 ≤ (32767 : ℤ) ∧ (32767 : ℤ) ≤ 32767 :=
  C3_export_amended.2 [PFloat.fin 1] 32767 (by
    have h1 : export_clip (nan_to_num (PFloat.fin 1)) = 1 := by
      simp [export_clip, nan_to_num]
    have ht : truncQ ((32767 : ℚ)) = 32767 := by
      rw [truncQ, if_pos (by norm_num)]
      exact Int.floor_eq_iff.mpr (by norm_num)
    simp [export_audio, h1, ht, toInt16])

/-- C6 counterexample: the limiter and the final normalization do not remove
NaN -- every IEEE comparison with NaN is false, so a NaN sample passes the
limiter untouched and suppresses the normalization -- hence a buffer holding
NaN still holds NaN after both stages, contradicting the claim for that
input. -/
theorem C6_counterexample :
    master_limit_normalize [PFloat.nan] = [PFloat.nan] := by
  decide

/-- Pointwise behaviour of the limiter on a finite sample: the output is
finite, has magnitude at most 0.9, agrees with the input below the
threshold, and is capped to magnitude exactly 0.9 above it. -/
theorem limiter_point_fin (q : ℚ) :
    ∃ r : ℚ, limiter_point (.fin q) = .fin r ∧ |r| ≤ 9/10 ∧
      (|q| ≤ 9/10 → r = q) ∧ (9/10 < |q| → |r| = 9/10) := by
  by_cases h : 9/10 < |q|
  · have hq0 : (0 : ℚ) < |q| := lt_trans (by norm_num) h
    have hqne : |q| ≠ 0 := ne_of_gt hq0
    have hne910 : ((9 : ℚ)/10) ≠ 0 := by norm_num
    have hdne : |q| / (9/10) ≠ 0 := by positivity
    have hr : |q / (|q| / (9/10))| = 9/10 := by
      rw [abs_div, abs_div, abs_abs, abs_of_nonneg (by norm_num : (0:ℚ) ≤ 9/10)]
      field_simp
      ring
    refine ⟨q / (|q| / (9/10)), ?_, ?_, ?_, ?_⟩
    · simp [limiter_point, pAbs, pGt, pDiv, h, hne910, hqne, hdne]
    · exact le_of_eq hr
    · intro hc
      exact absurd h (not_lt.mpr hc)
    · intro _
      exact hr
  · refine ⟨q, ?_, ?_, fun _ => rfl, fun hc => absurd hc h⟩
    · simp [limiter_point, pAbs, pGt, h]
    · exact not_lt.mp h

/-- Folding np.maximum over a list of finite values starting from a finite
value yields a finite upper bound of everything involved. -/
theorem foldl_pMax_fin (t : List PFloat) (m : ℚ)
    (h : ∀ x ∈ t, ∃ q : ℚ, x = .fin q) :
    ∃ M : ℚ, t.foldl pMax (.fin m) = .fin M ∧ m ≤ M ∧
      ∀ q : ℚ, PFloat.fin q ∈ t → q ≤ M := by
  induction t generalizing m with
  | nil => exact ⟨m, rfl, le_refl m, fun q hq => absurd hq (List.not_mem_nil _)⟩
  | cons x t ih =>
    obtain ⟨q0, hq0⟩ := h x (List.mem_cons_self x t)
    subst hq0
    have hstep : pMax (.fin m) (.fin q0) = .fin (max m q0) := rfl
    obtain ⟨M, hM, hle, hall⟩ :=
      ih (max m q0) (fun y hy => h y (List.mem_cons_of_mem _ hy))
    refine ⟨M, by simpa [hstep] using hM, le_trans (le_max_left m q0) hle, ?_⟩
    intro q hq
    rcases List.mem_cons.mp hq with hq | hq
    · have : q = q0 := by injection hq
      subst this
      exact le_trans (le_max_right m q) hle
    · exact hall q hq

/-- np.max over the absolute values of a buffer of finite samples is a
finite nonnegative bound on every magnitude in the buffer. -/
theorem npMaxAbs_fin (l : List PFloat) (h : ∀ x ∈ l, ∃ q : ℚ, x = .fin q) :
    ∃ M : ℚ, npMaxAbs l = .fin M ∧ 0 ≤ M ∧
      ∀ q : ℚ, PFloat.fin q ∈ l → |q| ≤ M := by
  cases l with
  | nil => exact ⟨0, rfl, le_refl 0, fun q hq => absurd hq (List.not_mem_nil _)⟩
  | cons x t =>
    obtain ⟨q0, hq0⟩ := h x (List.mem_cons_self x t)
    subst hq0
    have hmap : (PFloat.fin q0 :: t).map pAbs = PFloat.fin |q0| :: t.map pAbs := rfl
    have hfin : ∀ y ∈ t.map pAbs, ∃ q : ℚ, y = PFloat.fin q := by
      intro y hy
      obtain ⟨z, hz, hzy⟩ := List.mem_map.mp hy
      obtain ⟨q, hq⟩ := h z (List.mem_cons_of_mem _ hz)
      subst hq
      exact ⟨|q|, hzy.symm⟩
    obtain ⟨M, hM, hle, hall⟩ := foldl_pMax_fin (t.map pAbs) |q0| hfin
    refine ⟨M, ?_, le_trans (abs_nonneg q0) hle, ?_⟩
    · simp only [npMaxAbs, hmap]
      exact hM
    · intro q hq
      rcases List.mem_cons.mp hq with hq | hq
    -- two cases: q is the head or q is in the tail
      · have : q = q0 := by injection hq
        subst this
        exact hle
      · refine hall |q| (List.mem_map.mpr ⟨PFloat.fin q, hq, rfl⟩)

/-- C6 amended: the limiter and final normalization guarantee the claimed
range only for buffers of finite samples: for those, every output value is
finite and lies in [-1, 1] (in fact in [-0.9, 0.9]); the limiter caps
magnitudes above 0.9 to exactly 0.9 and passes smaller samples through, and
the normalization stage is skipped when the absolute maximum is zero.  NaN
values, however, pass through both stages untouched. -/
theorem C6_master_safety_amended :
    (∀ a : List PFloat, (∀ x ∈ a, ∃ q : ℚ, x = .fin q) →
      ∀ y ∈ master_limit_normalize a, ∃ r : ℚ, y = .fin r ∧ -1 ≤ r ∧ r ≤ 1) ∧
    (∀ q : ℚ, |q| ≤ 9/10 → limiter_point (.fin q) = .fin q) ∧
    (∀ q : ℚ, 9/10 < |q| →
      ∃ r : ℚ, limiter_point (.fin q) = .fin r ∧ |r| = 9/10) ∧
    (∀ a : List PFloat, npMaxAbs a = .fin 0 → normalize_stage a = a) := by
  refine ⟨?_, ?_, ?_, ?_⟩
  · intro a hfin y hy
    -- every limiter output over a finite buffer is finite with magnitude at most 0.9
    have hlim : ∀ y ∈ limiter a, ∃ r : ℚ, y = .fin r ∧ |r| ≤ 9/10 := by
      intro y hy
      obtain ⟨x, hx, hxy⟩ := List.mem_map.mp hy
      obtain ⟨q, hq⟩ := hfin x hx
      subst hq
      obtain ⟨r, hr1, hr2, _, _⟩ := limiter_point_fin q
      exact ⟨r, by rw [← hxy, hr1], hr2⟩
    have hlimfin : ∀ y ∈ limiter a, ∃ r : ℚ, y = .fin r := by
      intro y hy
      obtain ⟨r, hr, _⟩ := hlim y hy
      exact ⟨r, hr⟩
    obtain ⟨M, hM, hM0, hMb⟩ := npMaxAbs_fin (limiter a) hlimfin
    unfold master_limit_normalize normalize_stage at hy
    rw [hM] at hy
    by_cases hpos : (0 : ℚ) < M
    · have hgt : pGt (PFloat.fin M) (.fin 0) = true := by
        simp [pGt, hpos]
      simp only [hgt, if_true] at hy
      obtain ⟨z, hz, hzy⟩ := List.mem_map.mp hy
      obtain ⟨r, hr, hrb⟩ := hlim z hz
      subst hr
      have hMne : M ≠ 0 := ne_of_gt hpos
      have hdiv : pDiv (PFloat.fin r) (PFloat.fin M) = .fin (r / M) := by
        simp [pDiv, hMne]
      rw [hdiv] at hzy
      have hmul : pMulQ (PFloat.fin (r / M)) (9/10) = .fin (r / M * (9/10)) := rfl
      rw [hmul] at hzy
      refine ⟨r / M * (9/10), hzy.symm, ?_⟩
      have hrM : |r| ≤ M := hMb r hz
      have habs : |r / M * (9/10)| ≤ 9/10 := by
        rw [abs_mul, abs_div, abs_of_nonneg (le_of_lt hpos),
          abs_of_nonneg (by norm_num : (0:ℚ) ≤ 9/10)]
        have hdle : |r| / M ≤ 1 := (div_le_one hpos).mpr hrM
        nlinarith [abs_nonneg r]
      constructor
      · linarith [neg_abs_le (r / M * (9/10)), habs]
      · linarith [le_abs_self (r / M * (9/10)), habs]
    · have hgt : pGt (PFloat.fin M) (.fin 0) = false := by
        simp [pGt]
        exact not_lt.mp hpos
      simp only [hgt, Bool.false_eq_true, if_false] at hy
      obtain ⟨r, hr, hrb⟩ := hlim y hy
      refine ⟨r, hr, ?_, ?_⟩
      · linarith [neg_abs_le r, hrb]
      · linarith [le_abs_self r, hrb]
  · intro q hq
    obtain ⟨r, hr1, _, hr3, _⟩ := limiter_point_fin q
    rw [hr1, hr3 hq]
  · intro q hq
    obtain ⟨r, hr1, _, _, hr4⟩ := limiter_point_fin q
    exact ⟨r, hr1, hr4 hq⟩
  · intro a ha
    unfold normalize_stage
    rw [ha]
    simp [pGt]

/-- C6 witness: instantiating the amended safety statement on the buffer
holding the single sample 2, whose limited and normalized value is 0.9. -/
theorem C6_master_safety_amended_witness :
    ∃ r : ℚ, PFloat.fin (9/10) = PFloat.fin r ∧ -1 ≤ r ∧ r ≤ 1 :=
  C6_master_safety_amended.1 [PFloat.fin 2]
    (fun x hx => ⟨2, by simpa using hx⟩)
    (PFloat.fin (9/10))
    (by
      have h1 : limiter_point (PFloat.fin 2) = PFloat.fin (9/10) := by
        have h2 : |(2 : ℚ)| = 2 := by norm_num
        have hne : ((9 : ℚ)/10) ≠ 0 := by norm_num
        have hdne : ((2 : ℚ) / (9/10)) ≠ 0 := by norm_num
        simp [limiter_point, pAbs, pGt, pDiv, h2, hne, hdne]
        norm_num
      have h2 : npMaxAbs [PFloat.fin (9/10)] = PFloat.fin (9/10) := by
        simp [npMaxAbs, pAbs, abs_of_nonneg (by norm_num : (0:ℚ) ≤ 9/10)]
      have h3 : pDiv (PFloat.fin (9/10)) (PFloat.fin (9/10)) = PFloat.fin 1 := by
        simp [pDiv]
      simp [master_limit_normalize, limiter, normalize_stage, h1, h2, h3, pGt, pMulQ])

/-! ### Sample selection (VoiceLibrary.get_best_sample, voice_library.py lines 505-568) -/

/-- The identity of a VoiceSample as the selector sees it (file_path is an
abstract handle; the lazily loaded audio buffer plays no role in
selection). -/
structure VSample where
  file_path : ℕ
  pitch : ℤ
  lyric : String
deriving DecidableEq

/-- The samples dict of a VoiceLibrary: labels in dict insertion order, each
with its sample list in insertion order. -/
abbrev SampleStore := List (String × List VSample)

/-- True when the pattern occurs at the start of the text. -/
def chrLeads : List Char → List Char → Bool
  | [], _ => true
  | _ :: _, [] => false
  | p :: ps, c :: cs => (p == c) && chrLeads ps cs

/-- Python substring containment, pat in s, on character lists. -/
def chrContains (pat : List Char) : List Char → Bool
  | [] => chrLeads pat []
  | c :: cs => chrLeads pat (c :: cs) || chrContains pat cs

/-- Python string containment a in b. -/
def strIn (a b : String) : Bool := chrContains a.toList b.toList

/-- The fixed pronunciation-similarity table of
VoiceLibrary.is_similar_pronunciation (lines 548-559), values in order. -/
def pronunciation_groups : List (List String) :=
  [["a", "ah", "aa"], ["i", "ee", "ii"], ["u", "oo", "uu"], ["e", "eh"],
   ["o", "oh"], ["ka", "ca"], ["ki", "key"], ["ku", "coo"], ["ke", "kay"],
   ["ko", "co"]]

/-- VoiceLibrary.is_similar_pronunciation (lines 542-568): empty strings are
never similar; otherwise both lowercased lyrics must sit in one group. -/
def is_similar_pronunciation (l1 l2 : String) : Bool :=
  if l1.length = 0 || l2.length = 0 then false
  else pronunciation_groups.any (fun g => g.contains l1.toLower && g.contains l2.toLower)

/-- Loop body of VoiceLibrary.find_similar_lyrics (lines 529-540): iterate
the stored labels in dict order; an exact match is inserted at the front of
the accumulator, substring matches in either direction and
pronunciation-similar labels are appended. -/
def find_similar_loop (target : String) : List (String × List VSample) → List String → List String
  | [], acc => acc
  | (k, _) :: rest, acc =>
    if k = target then find_similar_loop target rest (target :: acc)
    else if strIn target k || strIn k target then find_similar_loop target rest (acc ++ [k])
    else if is_similar_pronunciation target k then find_similar_loop target rest (acc ++ [k])
    else find_similar_loop target rest acc

/-- VoiceLibrary.find_similar_lyrics. -/
def find_similar_lyrics (store : SampleStore) (target : String) : List String :=
  find_similar_loop target store []

/-- Absolute pitch distance abs(s.pitch - target_pitch). -/
def pitch_dist (target : ℤ) (s : VSample) : ℕ := (s.pitch - target).natAbs

/-- Python list.sort(key=lambda x: abs(x.pitch - target_pitch)): a stable
sort by the pitch-distance key (insertion sort is stable, as Timsort is). -/
def sort_by_dist (target : ℤ) (l : List VSample) : List VSample :=
  List.insertionSort (fun a b => pitch_dist target a ≤ pitch_dist target b) l

/-- Replacing the list object stored under a label: the in-place list.sort
at line 526 mutates the stored list, modelled as an update of that entry. -/
def store_update (store : SampleStore) (k : String) (v : List VSample) : SampleStore :=
  store.map (fun p => if p.1 = k then (k, v) else p)

/-- Lines 516-527 of get_best_sample, after the label is resolved: prefer
samples within 3 semitones sorted by distance (a fresh list, store
untouched); otherwise sort the stored list in place by distance and take its
first element.  The error value models the IndexError raised by indexing
position 0 of an empty list (or a KeyError on an absent label), neither of
which is reachable for a store whose labels all carry samples. -/
def pick_from (store : SampleStore) (lyr : String) (target : ℤ) :
    Except Unit (Option VSample × SampleStore) :=
  match store.lookup lyr with
  | none => .error ()
  | some available =>
    let close := available.filter (fun s => pitch_dist target s ≤ 3)
    if close.isEmpty then
      let sorted := sort_by_dist target available
      match sorted.head? with
      | some s => .ok (some s, store_update store lyr sorted)
      | none => .error ()
    else
      match (sort_by_dist target close).head? with
      | some s => .ok (some s, store)
      | none => .error ()

/-- VoiceLibrary.get_best_sample (lines 505-527): when the requested label is
absent or stored empty, resolve it through find_similar_lyrics, returning
none when no similar label exists; then select among the resolved label's
samples. -/
def get_best_sample (store : SampleStore) (lyric : String) (target : ℤ) :
    Except Unit (Option VSample × SampleStore) :=
  match store.lookup lyric with
  | some l =>
    if l.isEmpty then
      match find_similar_lyrics store lyric with
      | [] => .ok (none, store)
      | lyr :: _ => pick_from store lyr target
    else pick_from store lyric target
  | none =>
    match find_similar_lyrics store lyric with
    | [] => .ok (none, store)
    | lyr :: _ => pick_from store lyr target

/-- First element attaining the minimal key: the head of any stable sort by
that key. -/
def first_min_by {α : Type} (k : α → ℕ) : List α → Option α
  | [] => none
  | a :: l =>
    match first_min_by k l with
    | none => some a
    | some m => if k a ≤ k m then some a else some m

/-! #### Selector lemmas -/

theorem orderedInsert_head {α : Type} (k : α → ℕ) (a : α) (s : List α) :
    (List.orderedInsert (fun x y => k x ≤ k y) a s).head? =
      (match s with
       | [] => some a
       | b :: _ => if k a ≤ k b then some a else some b) := by
  cases s with
  | nil => rfl
  | cons b t =>
    by_cases h : k a ≤ k b
    · simp [List.orderedInsert, h]
    · simp [List.orderedInsert, h]

theorem insertionSort_head_first_min {α : Type} (k : α → ℕ) (l : List α) :
    (List.insertionSort (fun x y => k x ≤ k y) l).head? = first_min_by k l := by
  induction l with
  | nil => rfl
  | cons a t ih =>
    rw [List.insertionSort, orderedInsert_head]
    cases hst : List.insertionSort (fun x y => k x ≤ k y) t with
    | nil =>
      have hperm := List.perm_insertionSort (fun x y => k x ≤ k y) t
      rw [hst] at hperm
      have ht : t = [] := hperm.symm.eq_nil
      subst ht
      rfl
    | cons b bs =>
      rw [hst] at ih
      simp only [List.head?] at ih
      rw [first_min_by, ← ih]

theorem lookup_mem_store (store : SampleStore) (k : String) (l : List VSample)
    (h : store.lookup k = some l) : (k, l) ∈ store := by
  induction store with
  | nil => simp [List.lookup] at h
  | cons p ps ih =>
    rw [List.lookup] at h
    cases hk : (k == p.1) with
    | true =>
      rw [hk] at h
      have hpl : p.2 = l := by injection h
      have hkey : k = p.1 := eq_of_beq hk
      have hpe : (k, l) = p := by
        rw [hkey, ← hpl]
      rw [hpe]
      -- element equals the head pair, so it is a member

      exact List.mem_cons_self _ _
    | false =>
      rw [hk] at h
      exact List.mem_cons_of_mem _ (ih h)

theorem lookup_none_keys (store : SampleStore) (k : String)
    (h : store.lookup k = none) : ∀ p ∈ store, p.1 ≠ k := by
  induction store with
  | nil => intro p hp; exact absurd hp (List.not_mem_nil _)
  | cons q ps ih =>
    intro p hp
    rw [List.lookup] at h
    cases hk : (k == q.1) with
    | true => rw [hk] at h; exact absurd h (by simp)
    | false =>
      rw [hk] at h
      rcases List.mem_cons.mp hp with hp | hp
      · subst hp
        intro hc
        rw [hc] at hk
        simp at hk
      · exact ih h p hp

theorem keys_lookup_isSome (store : SampleStore) (k : String)
    (h : k ∈ store.map Prod.fst) : ∃ l, store.lookup k = some l := by
  induction store with
  | nil => simp at h
  | cons p ps ih =>
    rw [List.map_cons] at h
    rcases List.mem_cons.mp h with h | h
    · refine ⟨p.2, ?_⟩
      rw [List.lookup, show (k == p.1) = true from beq_iff_eq.mpr h]
    · cases hk : (k == p.1) with
      | true => exact ⟨p.2, by rw [List.lookup, hk]⟩
      | false =>
        obtain ⟨l, hl⟩ := ih h
        exact ⟨l, by rw [List.lookup, hk]; exact hl⟩

theorem store_update_lookup (store : SampleStore) (k : String) (v l : List VSample)
    (h : store.lookup k = some l) : (store_update store k v).lookup k = some v := by
  induction store with
  | nil => simp [List.lookup] at h
  | cons p ps ih =>
    rw [List.lookup] at h
    unfold store_update
    rw [List.map_cons]
    cases hk : (k == p.1) with
    | true =>
      have hkey : k = p.1 := eq_of_beq hk
      rw [List.lookup]
      simp [← hkey]
    | false =>
      rw [hk] at h
      have hne : ¬ p.1 = k := by
        intro hc
        rw [hc] at hk
        simp at hk
      rw [List.lookup]
      simp only [if_neg hne]
      rw [hk]
      exact ih h

theorem find_similar_loop_no_exact (target : String) (st : List (String × List VSample))
    (hne : ∀ p ∈ st, p.1 ≠ target) (acc : List String) :
    find_similar_loop target st acc =
      acc ++ (st.map Prod.fst).filter
        (fun k => strIn target k || strIn k target || is_similar_pronunciation target k) := by
  induction st generalizing acc with
  | nil => simp [find_similar_loop]
  | cons p ps ih =>
    obtain ⟨k, v⟩ := p
    have hk : k ≠ target := hne (k, v) (List.mem_cons_self _ _)
    have hne2 : ∀ p ∈ ps, p.1 ≠ target := fun p hp => hne p (List.mem_cons_of_mem _ hp)
    rw [find_similar_loop, if_neg hk]
    by_cases h1 : (strIn target k || strIn k target) = true
    · rw [if_pos h1, ih hne2]
      have : (strIn target k || strIn k target || is_similar_pronunciation target k) = true := by
        simp only [Bool.or_eq_true] at h1 ⊢
        tauto
      simp [List.filter_cons, this]
    · rw [if_neg h1]
      by_cases h2 : is_similar_pronunciation target k = true
      · rw [if_pos h2, ih hne2]
        have : (strIn target k || strIn k target || is_similar_pronunciation target k) = true := by
          simp only [Bool.or_eq_true] at h1 ⊢
          tauto
        simp [List.filter_cons, this]
      · rw [if_neg h2, ih hne2]
        have : (strIn target k || strIn k target || is_similar_pronunciation target k) = false := by
          simp only [Bool.or_eq_true, not_or, Bool.not_eq_true] at h1 h2
          simp [h1.1, h1.2, h2]
        simp [List.filter_cons, this]

/-- What pick_from returns on a label whose stored list is nonempty: the
first element of minimal pitch distance in the close set when some sample is
within 3 semitones, else in the full stored list. -/
theorem pick_from_spec (store : SampleStore) (lyr : String) (target : ℤ)
    (l : List VSample) (hl : store.lookup lyr = some l) (hlne : l ≠ []) :
    ∃ s store2, pick_from store lyr target = .ok (some s, store2) ∧
      ((l.filter (fun s => pitch_dist target s ≤ 3)).isEmpty = true →
        first_min_by (pitch_dist target) l = some s) ∧
      ((l.filter (fun s => pitch_dist target s ≤ 3)).isEmpty = false →
        first_min_by (pitch_dist target) (l.filter (fun s => pitch_dist target s ≤ 3)) = some s) := by
  unfold pick_from
  rw [hl]
  dsimp only
  by_cases hclose : (l.filter (fun s => pitch_dist target s ≤ 3)).isEmpty = true
  · have hsorted_ne : sort_by_dist target l ≠ [] := by
      intro hc
      have hperm := List.perm_insertionSort
        (fun a b => pitch_dist target a ≤ pitch_dist target b) l
      rw [show List.insertionSort (fun a b => pitch_dist target a ≤ pitch_dist target b) l
          = sort_by_dist target l from rfl, hc] at hperm
      exact hlne hperm.symm.eq_nil
    obtain ⟨s, hs⟩ := List.exists_mem_of_ne_nil _ hsorted_ne
    have hhead : (sort_by_dist target l).head? = first_min_by (pitch_dist target) l :=
      insertionSort_head_first_min (pitch_dist target) l
    cases hh : (sort_by_dist target l).head? with
    | none =>
      rw [List.head?_eq_none_iff] at hh
      exact absurd hh hsorted_ne
    | some s0 =>
      refine ⟨s0, store_update store lyr (sort_by_dist target l), ?_, ?_, ?_⟩
      · simp only [hclose, if_true, hh]
      · intro _
        rw [← hhead, hh]
      · intro hc
        rw [hclose] at hc
        exact absurd hc (by simp)
  · have hclose2 : (l.filter (fun s => pitch_dist target s ≤ 3)).isEmpty = false := by
      cases h : (l.filter (fun s => pitch_dist target s ≤ 3)).isEmpty
      · rfl
      · exact absurd h hclose
    have hcne : l.filter (fun s => pitch_dist target s ≤ 3) ≠ [] := by
      intro hc
      rw [hc] at hclose2
      simp [List.isEmpty] at hclose2
    have hsorted_ne : sort_by_dist target (l.filter (fun s => pitch_dist target s ≤ 3)) ≠ [] := by
      intro hc
      have hperm := List.perm_insertionSort
        (fun a b => pitch_dist target a ≤ pitch_dist target b)
        (l.filter (fun s => pitch_dist target s ≤ 3))
      rw [show List.insertionSort (fun a b => pitch_dist target a ≤ pitch_dist target b)
          (l.filter (fun s => pitch_dist target s ≤ 3))
          = sort_by_dist target (l.filter (fun s => pitch_dist target s ≤ 3)) from rfl,
        hc] at hperm
      exact hcne hperm.symm.eq_nil
    have hhead : (sort_by_dist target (l.filter (fun s => pitch_dist target s ≤ 3))).head? =
        first_min_by (pitch_dist target) (l.filter (fun s => pitch_dist target s ≤ 3)) :=
      insertionSort_head_first_min (pitch_dist target)
        (l.filter (fun s => pitch_dist target s ≤ 3))
    cases hh : (sort_by_dist target (l.filter (fun s => pitch_dist target s ≤ 3))).head? with
    | none =>
      rw [List.head?_eq_none_iff] at hh
      exact absurd hh hsorted_ne
    | some s0 =>
      refine ⟨s0, store, ?_, ?_, ?_⟩
      · simp only [hclose2, Bool.false_eq_true, if_false, hh]
      · intro hc
        rw [hclose2] at hc
        exact absurd hc (by simp)
      · intro _
        rw [← hhead, hh]

/-- C9: the selector returns the first sample of minimal pitch distance in
the within-3-semitones subset when that subset is nonempty, else the first of
minimal distance among all of the resolved label's samples (ties resolved by
position in the stored list); when the requested label is absent, the
candidate labels are exactly the stored labels satisfying a similarity
condition, in stored order, and when any exists the selector picks from the
first of them and never returns none.  Hypothesis: every stored label has at
least one sample, the invariant the library loader maintains. -/
theorem C9_selector (store : SampleStore) (lyric : String) (target : ℤ)
    (hne : ∀ p ∈ store, p.2 ≠ []) :
    (∀ l, store.lookup lyric = some l →
      ∃ s store2, get_best_sample store lyric target = .ok (some s, store2) ∧
        ((l.filter (fun s => pitch_dist target s ≤ 3)).isEmpty = true →
          first_min_by (pitch_dist target) l = some s) ∧
        ((l.filter (fun s => pitch_dist target s ≤ 3)).isEmpty = false →
          first_min_by (pitch_dist target)
            (l.filter (fun s => pitch_dist target s ≤ 3)) = some s)) ∧
    (store.lookup lyric = none →
      find_similar_lyrics store lyric =
        (store.map Prod.fst).filter
          (fun k => strIn lyric k || strIn k lyric || is_similar_pronunciation lyric k)) ∧
    (∀ lyr rest, store.lookup lyric = none →
      find_similar_lyrics store lyric = lyr :: rest →
      ∃ l s store2, store.lookup lyr = some l ∧
        get_best_sample store lyric target = .ok (some s, store2) ∧
        ((l.filter (fun s => pitch_dist target s ≤ 3)).isEmpty = true →
          first_min_by (pitch_dist target) l = some s) ∧
        ((l.filter (fun s => pitch_dist target s ≤ 3)).isEmpty = false →
          first_min_by (pitch_dist target)
            (l.filter (fun s => pitch_dist target s ≤ 3)) = some s)) := by
  refine ⟨?_, ?_, ?_⟩
  · intro l hl
    have hlne : l ≠ [] := hne (lyric, l) (lookup_mem_store store lyric l hl)
    obtain ⟨s, store2, hp, h1, h2⟩ := pick_from_spec store lyric target l hl hlne
    refine ⟨s, store2, ?_, h1, h2⟩
    have hie : l.isEmpty = false := by
      cases hi : l.isEmpty
      · rfl
      · rw [List.isEmpty_iff] at hi
        exact absurd hi hlne
    unfold get_best_sample
    rw [hl]
    dsimp only
    rw [hie]
    simp only [Bool.false_eq_true, if_false]
    exact hp
  · intro hnone
    unfold find_similar_lyrics
    rw [find_similar_loop_no_exact lyric store (lookup_none_keys store lyric hnone) []]
    rfl
  · intro lyr rest hnone hsim
    have hmem : lyr ∈ (store.map Prod.fst).filter
        (fun k => strIn lyric k || strIn k lyric || is_similar_pronunciation lyric k) := by
      have := find_similar_loop_no_exact lyric store (lookup_none_keys store lyric hnone) []
      unfold find_similar_lyrics at hsim
      rw [this] at hsim
      rw [List.nil_append] at hsim
      rw [hsim]
      exact List.mem_cons_self _ _
    have hkey : lyr ∈ store.map Prod.fst := List.mem_of_mem_filter hmem
    obtain ⟨l, hl⟩ := keys_lookup_isSome store lyr hkey
    have hlne : l ≠ [] := hne (lyr, l) (lookup_mem_store store lyr l hl)
    obtain ⟨s, store2, hp, h1, h2⟩ := pick_from_spec store lyr target l hl hlne
    refine ⟨l, s, store2, hl, ?_, h1, h2⟩
    unfold get_best_sample
    rw [hnone]
    dsimp only
    rw [hsim]
    dsimp only
    exact hp

/-- C9 witness: requesting label ka at pitch 60 from a store holding only
label oka finds oka through substring containment and returns its sample. -/
theorem C9_selector_witness :
    ∃ l s store2,
      ([("oka", [⟨0, 60, "oka"⟩])] : SampleStore).lookup "oka" = some l ∧
      get_best_sample [("oka", [⟨0, 60, "oka"⟩])] "ka" 60 = .ok (some s, store2) ∧
      ((l.filter (fun s => pitch_dist 60 s ≤ 3)).isEmpty = true →
        first_min_by (pitch_dist 60) l = some s) ∧
      ((l.filter (fun s => pitch_dist 60 s ≤ 3)).isEmpty = false →
        first_min_by (pitch_dist 60)
          (l.filter (fun s => pitch_dist 60 s ≤ 3)) = some s) :=
  (C9_selector [("oka", [⟨0, 60, "oka"⟩])] "ka" 60 (by decide)).2.2
    "oka" [] (by decide) (by decide)

/-- C10: when the resolved label has no sample within 3 semitones of the
target, the call sorts the stored list in place: the returned store carries,
under that label, the stable distance-sorted permutation of the stored list
(same sample objects, so all fields unchanged), while every other label's
entry is untouched; the original insertion order of that list is therefore
not preserved across calls. -/
theorem C10_store_mutation (store : SampleStore) (lyric : String) (target : ℤ)
    (l : List VSample) (hl : store.lookup lyric = some l) (hlne : l ≠ [])
    (hclose : l.filter (fun s => pitch_dist target s ≤ 3) = []) :
    ∃ s, get_best_sample store lyric target =
        .ok (some s, store_update store lyric (sort_by_dist target l)) ∧
      (sort_by_dist target l).Perm l ∧
      (∀ p ∈ store, p.1 ≠ lyric →
        p ∈ store_update store lyric (sort_by_dist target l)) ∧
      (store_update store lyric (sort_by_dist target l)).lookup lyric =
        some (sort_by_dist target l) := by
  have hperm : (sort_by_dist target l).Perm l :=
    List.perm_insertionSort (fun a b => pitch_dist target a ≤ pitch_dist target b) l
  have hsorted_ne : sort_by_dist target l ≠ [] := by
    intro hc
    rw [hc] at hperm
    exact hlne hperm.symm.eq_nil
  cases hh : (sort_by_dist target l).head? with
  | none =>
    rw [List.head?_eq_none_iff] at hh
    exact absurd hh hsorted_ne
  | some s0 =>
    refine ⟨s0, ?_, hperm, ?_, store_update_lookup store lyric _ l hl⟩
    · have hle : l.isEmpty = false := by
        cases hi : l.isEmpty
        · rfl
        · rw [List.isEmpty_iff] at hi
          exact absurd hi hlne
      unfold get_best_sample
      rw [hl]
      dsimp only
      rw [hle]
      simp only [Bool.false_eq_true, if_false]
      unfold pick_from
      rw [hl]
      dsimp only
      simp only [hclose, List.isEmpty_nil, if_true, hh]
    · intro p hp hpk
      unfold store_update
      refine List.mem_map.mpr ⟨p, hp, ?_⟩
      rw [if_neg hpk]

/-- C10 witness: a store with one label a holding samples at pitches 50 and
60, queried at target 70 (both further than 3 semitones), comes back with
that label's list reordered to [60, 50] by distance. -/
theorem C10_store_mutation_witness :
    ∃ s, get_best_sample [("a", [⟨0, 50, "a"⟩, ⟨1, 60, "a"⟩])] "a" 70 =
        .ok (some s, store_update [("a", [⟨0, 50, "a"⟩, ⟨1, 60, "a"⟩])] "a"
          (sort_by_dist 70 [⟨0, 50, "a"⟩, ⟨1, 60, "a"⟩])) ∧
      (sort_by_dist 70 [⟨0, 50, "a"⟩, ⟨1, 60, "a"⟩]).Perm [⟨0, 50, "a"⟩, ⟨1, 60, "a"⟩] ∧
      (∀ p ∈ ([("a", [⟨0, 50, "a"⟩, ⟨1, 60, "a"⟩])] : SampleStore), p.1 ≠ "a" →
        p ∈ store_update [("a", [⟨0, 50, "a"⟩, ⟨1, 60, "a"⟩])] "a"
          (sort_by_dist 70 [⟨0, 50, "a"⟩, ⟨1, 60, "a"⟩])) ∧
      (store_update [("a", [⟨0, 50, "a"⟩, ⟨1, 60, "a"⟩])] "a"
          (sort_by_dist 70 [⟨0, 50, "a"⟩, ⟨1, 60, "a"⟩])).lookup "a" =
        some (sort_by_dist 70 [⟨0, 50, "a"⟩, ⟨1, 60, "a"⟩]) :=
  C10_store_mutation [("a", [⟨0, 50, "a"⟩, ⟨1, 60, "a"⟩])] "a" 70
    [⟨0, 50, "a"⟩, ⟨1, 60, "a"⟩] (by decide) (by decide) (by decide)

/-! ### List write primitives (numpy slice assignment on aligned slices) -/

/-- Overwrite the leading elements of a buffer with vals
(buf[0:len(vals)] = vals); vals running past the buffer end are dropped, a
case no call site below reaches (numpy would raise there). -/
def writeOnto : List ℚ → List ℚ → List ℚ
  | b, [] => b
  | [], _ => []
  | _ :: bs, x :: xs => x :: writeOnto bs xs

/-- buf[start:start+len(vals)] = vals. -/
def setSlice : List ℚ → ℕ → List ℚ → List ℚ
  | b, 0, v => writeOnto b v
  | [], _ + 1, _ => []
  | x :: bs, s + 1, v => x :: setSlice bs s v

/-- Pointwise sum onto the leading elements (buf[0:len(vals)] += vals). -/
def addOnto : List ℚ → List ℚ → List ℚ
  | b, [] => b
  | [], _ => []
  | x :: bs, y :: ys => (x + y) :: addOnto bs ys

/-- buf[start:start+len(vals)] += vals. -/
def addSlice : List ℚ → ℕ → List ℚ → List ℚ
  | b, 0, v => addOnto b v
  | [], _ + 1, _ => []
  | x :: bs, s + 1, v => x :: addSlice bs s v

/-- buf[start:start+n], a read-only slice. -/
def sliceOf (b : List ℚ) (start n : ℕ) : List ℚ := (b.drop start).take n

/-- np.linspace(a, b, n): n evenly spaced points from a to b inclusive. -/
def linspace (a b : ℚ) (n : ℕ) : List ℚ :=
  if n = 0 then []
  else if n = 1 then [a]
  else (List.range n).map (fun i => a + (b - a) * i / (n - 1))

theorem writeOnto_length (b v : List ℚ) : (writeOnto b v).length = b.length := by
  induction b generalizing v with
  | nil => cases v <;> rfl
  | cons x bs ih =>
    cases v with
    | nil => rfl
    | cons y ys => simp [writeOnto, ih]

theorem setSlice_length (b : List ℚ) (s : ℕ) (v : List ℚ) :
    (setSlice b s v).length = b.length := by
  induction b generalizing s with
  | nil => cases s <;> simp [setSlice, writeOnto_length]
  | cons x bs ih =>
    cases s with
    | zero => simp [setSlice, writeOnto_length]
    | succ t => simp [setSlice, ih]

theorem addOnto_length (b v : List ℚ) : (addOnto b v).length = b.length := by
  induction b generalizing v with
  | nil => cases v <;> rfl
  | cons x bs ih =>
    cases v with
    | nil => rfl
    | cons y ys => simp [addOnto, ih]

theorem addSlice_length (b : List ℚ) (s : ℕ) (v : List ℚ) :
    (addSlice b s v).length = b.length := by
  induction b generalizing s with
  | nil => cases s <;> simp [addSlice, addOnto_length]
  | cons x bs ih =>
    cases s with
    | zero => simp [addSlice, addOnto_length]
    | succ t => simp [addSlice, ih]

theorem zeros_length (n : ℕ) : (zeros n).length = n := by
  simp [zeros]

theorem zeros_getD (n i : ℕ) : (zeros n).getD i 0 = 0 := by
  induction n generalizing i with
  | zero => simp [zeros]
  | succ n ih =>
    cases i with
    | zero => simp [zeros, List.replicate_succ]
    | succ j => simp [zeros, List.replicate_succ]

/-! ### Per-note rendering pipeline (SynthesisEngine, lines 193-416) -/

/-- Outcomes of the external calls the rendering pipeline performs.  load is
the result of sample.load_sample() followed by reading sample.sample_data
(the empty list covers both a None and an empty decoded buffer; an error is
an exception escaping to the top-level handler); ps and ts are the librosa
pitch-shift and time-stretch calls, whose exceptions are caught locally;
tanhApprox and cosPi stand for the transcendental float functions np.tanh
and t mapped to np.cos(np.pi * t), which have no exact rational form. -/
structure DSP where
  load : Except Unit (List ℚ)
  ps : List ℚ → ℤ → ℕ → ℕ → Except Unit (List ℚ)
  ts : List ℚ → ℚ → Except Unit (List ℚ)
  tanhApprox : ℚ → ℚ
  cosPi : ℚ → ℚ

/-- np.mean of a buffer. -/
def meanQ (a : List ℚ) : ℚ := a.sum / a.length

/-- SynthesisEngine.preprocess_sample (lines 238-256): subtract the DC mean,
apply linear fades of min(100, len/10) samples at both ends, then the soft
compressor tanh(x*1.5)/1.5 pointwise. -/
def preprocess_sample (o : DSP) (a0 : List ℚ) : List ℚ :=
  let m := meanQ a0
  let a := a0.map (fun x => x - m)
  let fs := min 100 (a.length / 10)
  let a := if 0 < fs then
      let a1 := setSlice a 0
        (List.zipWith (fun x y => x * y) (a.take fs) (linspace 0 1 fs))
      setSlice a1 (a1.length - fs)
        (List.zipWith (fun x y => x * y) (a1.drop (a1.length - fs)) (linspace 1 0 fs))
    else a
  a.map (fun x => o.tanhApprox (x * (3/2)) / (3/2))

/-- SynthesisEngine.safe_pitch_shift (lines 258-295): clamp the shift to
plus-minus 24 semitones, choose a 2048/512 window for shifts of at most 6
semitones and 4096/1024 above, fall back to 1024/256 when the buffer is
shorter than the chosen window, skip entirely when still shorter, and return
the input unchanged when the librosa call raises. -/
def safe_pitch_shift (o : DSP) (audio : List ℚ) (semitones : ℤ) : List ℚ :=
  let s := max (-24) (min 24 semitones)
  let w := if |s| ≤ 6 then ((2048 : ℕ), (512 : ℕ)) else (4096, 1024)
  let w := if audio.length < w.1 then (1024, 256) else w
  if audio.length < w.1 then audio
  else
    match o.ps audio s w.1 w.2 with
    | .ok shifted => shifted
    | .error _ => audio

/-- Loop of crossfade_repeat for the lengthening case (lines 342-375).  The
fuel argument bounds the iteration count: each pass advances pos by
copy_len = min(len(audio), target - pos), which is positive whenever the
input buffer is nonempty -- the only way the caller reaches this loop -- so
fuel = target suffices and the fuel-exhausted arm is unreachable there (on
an empty input Python would loop forever). -/
def cf_loop (audio : List ℚ) (target : ℕ) : ℕ → ℕ → List ℚ → List ℚ
  | 0, _, result => result
  | fuel + 1, pos, result =>
    if pos < target then
      let current := audio.length
      let copy_len := min current (target - pos)
      if pos = 0 then
        cf_loop audio target fuel (pos + copy_len) (setSlice result 0 (audio.take copy_len))
      else
        let overlap := min (min 256 (current / 4)) (min pos copy_len)
        if 0 < overlap then
          let fade_out := linspace 1 0 overlap
          let fade_in := fade_out.map (fun x => 1 - x)
          let mixed := List.zipWith (fun x y => x + y)
            (List.zipWith (fun x y => x * y) (sliceOf result pos overlap) fade_out)
            (List.zipWith (fun x y => x * y) (audio.take overlap) fade_in)
          let result2 := setSlice result pos mixed
          let result3 := if overlap < copy_len then
              setSlice result2 (pos + overlap) ((audio.take copy_len).drop overlap)
            else result2
          cf_loop audio target fuel (pos + copy_len) result3
        else
          cf_loop audio target fuel (pos + copy_len)
            (setSlice result pos (audio.take copy_len))
    else result

/-- SynthesisEngine.crossfade_repeat (lines 329-377).  The error value
models the numpy broadcast ValueError raised when the fade-out window is
longer than the truncated buffer (fade lengths are capped at 512, so this
happens exactly when target < min(current - target, 512)); that exception
escapes to the top-level handler of synthesize_note_safe. -/
def crossfade_repeat (audio : List ℚ) (target : ℕ) : Except Unit (List ℚ) :=
  let current := audio.length
  if target ≤ current then
    let fade_out_len := min (current - target) 512
    let shortened := audio.take target
    if 0 < fade_out_len then
      if target < fade_out_len then .error ()
      else .ok (setSlice shortened (target - fade_out_len)
        (List.zipWith (fun x y => x * y) (shortened.drop (target - fade_out_len))
          (linspace 1 0 fade_out_len)))
    else .ok shortened
  else .ok (cf_loop audio target target 0 (zeros target))

/-- SynthesisEngine.time_stretch_safe (lines 297-327): a no-op when the
length already matches; the phase vocoder (adjusted to the exact target by
truncation or zero padding) for ratios in [0.5, 2], falling back to
crossfade_repeat when librosa raises or the ratio is extreme.  The error
value models the ZeroDivisionError computing the ratio on an empty buffer. -/
def time_stretch_safe (o : DSP) (audio : List ℚ) (target : ℕ) : Except Unit (List ℚ) :=
  let current := audio.length
  if current = target then .ok audio
  else if current = 0 then .error ()
  else
    let r := (target : ℚ) / (current : ℚ)
    if 1/2 ≤ r ∧ r ≤ 2 then
      match o.ts audio (1 / r) with
      | .ok stretched =>
        if target < stretched.length then .ok (stretched.take target)
        else if stretched.length < target then
          .ok (stretched ++ zeros (target - stretched.length))
        else .ok stretched
      | .error _ => crossfade_repeat audio target
    else crossfade_repeat audio target

/-- SynthesisEngine.apply_note_envelope (lines 379-402): raised-cosine
attack over min(int(0.15*len), 1500) samples and release over
min(int(0.35*len), 3500); buffers shorter than 10 samples pass through. -/
def apply_note_envelope (o : DSP) (a : List ℚ) : List ℚ :=
  if a.length < 10 then a
  else
    let attack_len := min (truncQ ((3/20 : ℚ) * a.length)).toNat 1500
    let release_len := min (truncQ ((7/20 : ℚ) * a.length)).toNat 3500
    let env := List.replicate a.length (1 : ℚ)
    let env := if 0 < attack_len then
        setSlice env 0 ((linspace 0 1 attack_len).map (fun t => 1/2 - 1/2 * o.cosPi t))
      else env
    let env := if 0 < release_len then
        setSlice env (a.length - release_len)
          ((linspace 0 1 release_len).map (fun t => 1/2 + 1/2 * o.cosPi t))
      else env
    List.zipWith (fun x e => x * e) a env

/-- SynthesisEngine.final_safety_check (lines 404-416): nan_to_num (the
identity on the finite values modelled here), clip to [-0.95, 0.95], then
one pass of the 3-tap smoother over interior samples only, computed from the
pre-assignment values as the numpy expression is. -/
def final_safety_check (a0 : List ℚ) : List ℚ :=
  let a := a0.map (fun x => max (-19/20) (min (19/20) x))
  if 3 < a.length then
    (List.range a.length).map (fun i =>
      if 1 ≤ i ∧ i + 1 < a.length then
        (1/4) * a.getD (i - 1) 0 + (1/2) * a.getD i 0 + (1/4) * a.getD (i + 1) 0
      else a.getD i 0)
  else a

/-- The fields of a Note the renderer reads. -/
structure RNote where
  pitch : ℤ
  duration : ℚ

/-- The fields of a VoiceSample the renderer reads; the audio itself is the
load outcome in DSP. -/
structure RSample where
  file_path : ℕ
  pitch : ℤ

/-- int(note.duration * self.sample_rate). -/
def target_samples (rate : ℕ) (duration : ℚ) : ℕ :=
  (truncQ (duration * rate)).toNat

/-- Pitch stage of synthesize_note_safe (lines 212-215): shift only when the
semitone difference exceeds 0.5 in magnitude (the pitches are integers, so
this means a nonzero difference). -/
def pitch_stage (o : DSP) (a : List ℚ) (s : ℤ) : List ℚ :=
  if 1/2 < |(s : ℚ)| then safe_pitch_shift o a s else a

/-- Body of the try block of synthesize_note_safe (lines 199-225): load the
sample (an empty buffer short-circuits to silence, returned before the cache
write, hence the Bool caching flag), preprocess, shift pitch, stretch to the
target length, apply the envelope and the safety check.  An error is an
uncaught stage exception reaching the top-level handler. -/
def synthesize_note_attempt (rate : ℕ) (o : DSP) (note : RNote) (sample_pitch : ℤ) :
    Except Unit (List ℚ × Bool) :=
  match o.load with
  | .error e => .error e
  | .ok data =>
    if data.length = 0 then .ok (zeros (target_samples rate note.duration), false)
    else
      let a := preprocess_sample o data
      let a := pitch_stage o a (note.pitch - sample_pitch)
      match time_stretch_safe o a (target_samples rate note.duration) with
      | .error e => .error e
      | .ok a2 => .ok (final_safety_check (apply_note_envelope o a2), true)

/-- The cache fingerprint, the f-string over file path, pitch and duration
(line 195). -/
abbrev CacheKey := ℕ × ℤ × ℚ

/-- Python dict lookup on the render cache. -/
def cache_lookup : List (CacheKey × List ℚ) → CacheKey → Option (List ℚ)
  | [], _ => none
  | p :: ps, k => if p.1 = k then some p.2 else cache_lookup ps k

/-- SynthesisEngine.synthesize_note_safe (lines 193-236): cached lookup
(returning a copy), the try body above, the bounded cache write for fully
rendered notes, and the top-level exception handler returning silence of the
requested length. -/
def synthesize_note_safe (rate : ℕ) (o : DSP) (cache : List (CacheKey × List ℚ))
    (note : RNote) (sample : RSample) : List ℚ × List (CacheKey × List ℚ) :=
  let key : CacheKey := (sample.file_path, note.pitch, note.duration)
  match cache_lookup cache key with
  | some v => (v, cache)
  | none =>
    match synthesize_note_attempt rate o note sample.pitch with
    | .ok (a, true) => (a, cache_store cache key a)
    | .ok (a, false) => (a, cache)
    | .error _ => (zeros (target_samples rate note.duration), cache)

/-! ### Track rendering (SynthesisEngine.synthesize_track, lines 109-141) -/

/-- The fields of a Note the track loop reads; rendered holds the result of
get_best_sample plus synthesize_note_safe for this note, modelled separately
above (none is a note whose lyric resolves to no sample, skipped at line
125). -/
structure TNote where
  start_time : ℚ
  duration : ℚ
  rendered : Option (List ℚ)

/-- max((note.start_time + note.duration for note in track.notes),
default=10); the default is dead for nonempty tracks. -/
def track_duration_of (notes : List TNote) : ℚ :=
  match notes.map (fun n => n.start_time + n.duration) with
  | [] => 10
  | h :: t => t.foldl max h

/-- Mixing step for one note (lines 120-139): skip when no sample resolved;
otherwise add -- not overwrite -- the rendered audio at
start = int(start_time * rate), first zero-padding the buffer whenever the
note extends past its current end. -/
def track_note_step (rate : ℕ) (buf : List ℚ) (n : TNote) : List ℚ :=
  match n.rendered with
  | none => buf
  | some na =>
    let start := (truncQ (n.start_time * rate)).toNat
    let stop := start + na.length
    if stop ≤ buf.length then addSlice buf start na
    else addSlice (buf ++ zeros (stop - buf.length)) start na

/-- SynthesisEngine.synthesize_track (lines 109-141): ten seconds of silence
for an empty track, else fold the notes over a buffer sized by the track
duration. -/
def synthesize_track (rate : ℕ) (notes : List TNote) : List ℚ :=
  if notes.isEmpty then zeros (rate * 10)
  else
    notes.foldl (track_note_step rate)
      (zeros (truncQ (track_duration_of notes * rate)).toNat)

/-- Contribution of one note at buffer index i: its rendered value at offset
i - start when i falls inside the placement window, else 0. -/
def placed_at (rate : ℕ) (n : TNote) (i : ℕ) : ℚ :=
  match n.rendered with
  | none => 0
  | some na =>
    let start := (truncQ (n.start_time * rate)).toNat
    if start ≤ i ∧ i < start + na.length then na.getD (i - start) 0 else 0

/-- Python max(-24, min(24, semitones)). -/
def clamp24 (s : ℤ) : ℤ := max (-24) (min 24 s)

/-- Follows the words of the spec (section 4.3 stage 2, and the C8 claim):
the analysis window is 4096/1024 when the clamped shift exceeds 6 semitones
and 2048/512 otherwise; a buffer shorter than the chosen window falls back
to 1024/256, and a buffer still shorter than 1024 samples skips the shift
(none). -/
def spec_choose_window (shift : ℤ) (len : ℕ) : Option (ℕ × ℕ) :=
  let base : ℕ × ℕ := if 6 < |shift| then (4096, 1024) else (2048, 512)
  if base.1 ≤ len then some base
  else if 1024 ≤ len then some (1024, 256)
  else none

/-! #### Length invariants of the rendering stages -/

theorem cf_loop_length (audio : List ℚ) (target : ℕ) :
    ∀ (fuel pos : ℕ) (result : List ℚ),
      (cf_loop audio target fuel pos result).length = result.length := by
  intro fuel
  induction fuel with
  | zero => intro pos result; rfl
  | succ fuel ih =>
    intro pos result
    simp only [cf_loop]
    split_ifs <;> simp [ih, setSlice_length]

theorem crossfade_repeat_ok_length (audio : List ℚ) (target : ℕ) (l : List ℚ)
    (h : crossfade_repeat audio target = .ok l) : l.length = target := by
  unfold crossfade_repeat at h
  dsimp only at h
  by_cases h1 : target ≤ audio.length
  · rw [if_pos h1] at h
    by_cases h2 : 0 < min (audio.length - target) 512
    · rw [if_pos h2] at h
      by_cases h3 : target < min (audio.length - target) 512
      · rw [if_pos h3] at h
        exact absurd h (by simp)
      · rw [if_neg h3] at h
        injection h with h
        subst h
        rw [setSlice_length, List.length_take]
        omega
    · rw [if_neg h2] at h
      injection h with h
      subst h
      rw [List.length_take]
      omega
  · rw [if_neg h1] at h
    injection h with h
    subst h
    rw [cf_loop_length, zeros_length]

theorem time_stretch_ok_length (o : DSP) (audio : List ℚ) (target : ℕ) (l : List ℚ)
    (h : time_stretch_safe o audio target = .ok l) : l.length = target := by
  unfold time_stretch_safe at h
  dsimp only at h
  by_cases h1 : audio.length = target
  · rw [if_pos h1] at h
    injection h with h
    subst h
    exact h1
  · rw [if_neg h1] at h
    by_cases h2 : audio.length = 0
    · rw [if_pos h2] at h
      exact absurd h (by simp)
    · rw [if_neg h2] at h
      by_cases h3 : (1 : ℚ)/2 ≤ (target : ℚ) / (audio.length : ℚ) ∧
          (target : ℚ) / (audio.length : ℚ) ≤ 2
      · rw [if_pos h3] at h
        cases hts : o.ts audio (1 / ((target : ℚ) / (audio.length : ℚ))) with
        | ok stretched =>
          rw [hts] at h
          dsimp only at h
          split_ifs at h with h4 h5
          · injection h with h
            subst h
            rw [List.length_take]
            omega
          · injection h with h
            subst h
            rw [List.length_append, zeros_length]
            omega
          · injection h with h
            subst h
            omega
        | error e =>
          rw [hts] at h
          exact crossfade_repeat_ok_length audio target l h
      · rw [if_neg h3] at h
        exact crossfade_repeat_ok_length audio target l h

theorem apply_note_envelope_length (o : DSP) (a : List ℚ) :
    (apply_note_envelope o a).length = a.length := by
  unfold apply_note_envelope
  dsimp only
  split_ifs <;> simp [setSlice_length]

theorem final_safety_check_length (a : List ℚ) :
    (final_safety_check a).length = a.length := by
  unfold final_safety_check
  dsimp only
  split_ifs <;> simp

theorem synthesize_note_attempt_length (rate : ℕ) (o : DSP) (note : RNote)
    (sp : ℤ) (a : List ℚ) (b : Bool)
    (h : synthesize_note_attempt rate o note sp = .ok (a, b)) :
    a.length = target_samples rate note.duration := by
  unfold synthesize_note_attempt at h
  cases hload : o.load with
  | error e =>
    rw [hload] at h
    exact absurd h (by simp)
  | ok data =>
    rw [hload] at h
    dsimp only at h
    by_cases hd : data.length = 0
    · rw [if_pos hd] at h
      injection h with h
      have ha : zeros (target_samples rate note.duration) = a := congrArg Prod.fst h
      rw [← ha, zeros_length]
    · rw [if_neg hd] at h
      cases hts : time_stretch_safe o
          (pitch_stage o (preprocess_sample o data) (note.pitch - sp))
          (target_samples rate note.duration) with
      | error e =>
        rw [hts] at h
        exact absurd h (by simp)
      | ok a2 =>
        rw [hts] at h
        injection h with h
        have ha : final_safety_check (apply_note_envelope o a2) = a := congrArg Prod.fst h
        rw [← ha, final_safety_check_length, apply_note_envelope_length]
        exact time_stretch_ok_length o _ _ a2 hts

/-- C5: for a valid note (positive duration) and any sample and stage
outcomes, a fresh render (cache miss) returns a buffer of exactly
int(duration*rate) samples, on the success path and both recovery paths
(empty sample data and stage exception); that length is within one sample of
round(duration*rate). -/
theorem C5_render_length (rate : ℕ) (o : DSP) (cache : List (CacheKey × List ℚ))
    (note : RNote) (sample : RSample)
    (hdur : 0 < note.duration)
    (hmiss : cache_lookup cache (sample.file_path, note.pitch, note.duration) = none) :
    (synthesize_note_safe rate o cache note sample).1.length =
      target_samples rate note.duration ∧
    |(target_samples rate note.duration : ℤ) - round (note.duration * rate)| ≤ 1 := by
  constructor
  · unfold synthesize_note_safe
    dsimp only
    rw [hmiss]
    dsimp only
    cases hatt : synthesize_note_attempt rate o note sample.pitch with
    | ok ab =>
      obtain ⟨a, b⟩ := ab
      cases b with
      | true =>
        dsimp only
        exact synthesize_note_attempt_length rate o note sample.pitch a true hatt
      | false =>
        dsimp only
        exact synthesize_note_attempt_length rate o note sample.pitch a false hatt
    | error e =>
      dsimp only
      rw [zeros_length]
  · have hx : (0 : ℚ) ≤ note.duration * rate := by positivity
    have hfl : (0 : ℤ) ≤ ⌊note.duration * (rate : ℚ)⌋ := Int.floor_nonneg.mpr hx
    have htn : ((target_samples rate note.duration : ℕ) : ℤ) =
        ⌊note.duration * (rate : ℚ)⌋ := by
      unfold target_samples truncQ
      rw [if_pos hx, Int.toNat_of_nonneg hfl]
    rw [htn, round_eq]
    have h1 : ⌊note.duration * (rate : ℚ)⌋ ≤ ⌊note.duration * (rate : ℚ) + 1/2⌋ :=
      Int.floor_le_floor (by linarith)
    have h2 : ⌊note.duration * (rate : ℚ) + 1/2⌋ ≤ ⌊note.duration * (rate : ℚ)⌋ + 1 := by
      have := Int.floor_le_floor
        (show note.duration * (rate : ℚ) + 1/2 ≤ note.duration * (rate : ℚ) + 1 by linarith)
      rw [show note.duration * (rate : ℚ) + 1 = note.duration * (rate : ℚ) + (1 : ℤ) by
        push_cast; ring] at this
      rw [Int.floor_add_int] at this
      exact this
    rw [abs_le]
    omega

/-- A DSP oracle whose sample decodes to an empty buffer and whose external
calls all succeed as identities. -/
def trivial_dsp : DSP :=
  { load := .ok [], ps := fun a _ _ _ => .ok a, ts := fun a _ => .ok a,
    tanhApprox := fun x => x, cosPi := fun _ => 1 }

/-- C5 witness at a concrete note, sample and oracle. -/
theorem C5_render_length_witness :
    (synthesize_note_safe 1 trivial_dsp [] ⟨60, 1⟩ ⟨0, 60⟩).1.length =
      target_samples 1 1 ∧
    |(target_samples 1 1 : ℤ) - round ((1 : ℚ) * 1)| ≤ 1 :=
  C5_render_length 1 trivial_dsp [] ⟨60, 1⟩ ⟨0, 60⟩ (by norm_num) rfl

/-- A DSP oracle whose sample load raises. -/
def failing_dsp : DSP :=
  { load := .error (), ps := fun a _ _ _ => .ok a, ts := fun a _ => .ok a,
    tanhApprox := fun x => x, cosPi := fun _ => 1 }

/-- C7: when any stage of the pipeline raises an exception that escapes its
own stage (a load failure, or the division by zero in the time stretch), the
top-level handler of synthesize_note_safe catches it and the note renders as
silence of the requested duration; the cache is left untouched and nothing
propagates to the caller (the function is total and always yields a
buffer). -/
theorem C7_exception_silence (rate : ℕ) (o : DSP) (cache : List (CacheKey × List ℚ))
    (note : RNote) (sample : RSample)
    (hmiss : cache_lookup cache (sample.file_path, note.pitch, note.duration) = none)
    (e : Unit)
    (hfail : synthesize_note_attempt rate o note sample.pitch = .error e) :
    (synthesize_note_safe rate o cache note sample).1 =
      zeros (target_samples rate note.duration) ∧
    (synthesize_note_safe rate o cache note sample).2 = cache := by
  unfold synthesize_note_safe
  dsimp only
  rw [hmiss]
  dsimp only
  rw [hfail]
  exact ⟨rfl, rfl⟩

/-- C7 witness at a concrete note and a load-failing oracle. -/
theorem C7_exception_silence_witness :
    (synthesize_note_safe 1 failing_dsp [] ⟨60, 1⟩ ⟨0, 60⟩).1 =
      zeros (target_samples 1 1) ∧
    (synthesize_note_safe 1 failing_dsp [] ⟨60, 1⟩ ⟨0, 60⟩).2 = [] :=
  C7_exception_silence 1 failing_dsp [] ⟨60, 1⟩ ⟨0, 60⟩ rfl () rfl

/-- C8: the pitch stage fires only when the semitone difference exceeds 0.5
in magnitude, so a zero difference passes the preprocessed buffer through
unchanged; and safe_pitch_shift behaves exactly as the window policy the
spec describes: clamp to plus-minus 24, 4096/1024 when the clamped shift
exceeds 6 semitones and 2048/512 otherwise, falling back to 1024/256 when
the buffer is shorter than the chosen window, skipping (returning the input)
when shorter than 1024 samples, and returning the input when the librosa
call raises. -/
theorem C8_pitch_shift_policy (o : DSP) (a : List ℚ) (s : ℤ) :
    safe_pitch_shift o a s =
      (match spec_choose_window (clamp24 s) a.length with
       | none => a
       | some w =>
         match o.ps a (clamp24 s) w.1 w.2 with
         | .ok shifted => shifted
         | .error _ => a) ∧
    pitch_stage o a 0 = a := by
  constructor
  · unfold safe_pitch_shift spec_choose_window clamp24
    dsimp only
    by_cases h6 : |max (-24) (min 24 s)| ≤ 6
    · rw [if_pos h6, if_neg (not_lt.mpr h6)]
      dsimp only
      by_cases hl : a.length < 2048
      · rw [if_pos hl]
        dsimp only
        rw [if_neg (by omega : ¬ (2048 : ℕ) ≤ a.length)]
        by_cases hs : a.length < 1024
        · rw [if_pos hs, if_neg (by omega : ¬ (1024 : ℕ) ≤ a.length)]
        · rw [if_neg hs, if_pos (by omega : (1024 : ℕ) ≤ a.length)]
      · rw [if_neg hl]
        dsimp only
        rw [if_neg hl, if_pos (by omega : (2048 : ℕ) ≤ a.length)]
    · rw [if_neg h6, if_pos (not_le.mp h6)]
      dsimp only
      by_cases hl : a.length < 4096
      · rw [if_pos hl]
        dsimp only
        rw [if_neg (by omega : ¬ (4096 : ℕ) ≤ a.length)]
        by_cases hs : a.length < 1024
        · rw [if_pos hs, if_neg (by omega : ¬ (1024 : ℕ) ≤ a.length)]
        · rw [if_neg hs, if_pos (by omega : (1024 : ℕ) ≤ a.length)]
      · rw [if_neg hl]
        dsimp only
        rw [if_neg hl, if_pos (by omega : (4096 : ℕ) ≤ a.length)]
  · unfold pitch_stage
    norm_num

/-! #### Element lemmas for the additive track mix -/

theorem addOnto_getD (b v : List ℚ) (i : ℕ) (hv : v.length ≤ b.length) :
    (addOnto b v).getD i 0 =
      b.getD i 0 + (if i < v.length then v.getD i 0 else 0) := by
  induction b generalizing v i with
  | nil =>
    have : v = [] := List.eq_nil_of_length_eq_zero (by simpa using hv)
    subst this
    simp [addOnto]
  | cons x bs ih =>
    cases v with
    | nil => simp [addOnto]
    | cons y ys =>
      cases i with
      | zero => simp [addOnto]
      | succ j =>
        simp only [addOnto, List.getD_cons_succ, List.length_cons]
        rw [ih ys j (by simpa using hv)]
        simp [Nat.succ_lt_succ_iff]

theorem addSlice_getD (b : List ℚ) (s : ℕ) (v : List ℚ) (i : ℕ)
    (hb : s + v.length ≤ b.length) :
    (addSlice b s v).getD i 0 =
      b.getD i 0 + (if s ≤ i ∧ i < s + v.length then v.getD (i - s) 0 else 0) := by
  induction b generalizing s i with
  | nil =>
    have : v = [] := List.eq_nil_of_length_eq_zero
      (by simp only [List.length_nil] at hb; omega)
    subst this
    cases s <;> simp [addSlice, addOnto]
  | cons x bs ih =>
    cases s with
    | zero =>
      rw [show addSlice (x :: bs) 0 v = addOnto (x :: bs) v from rfl]
      rw [addOnto_getD (x :: bs) v i (by simpa using hb)]
      simp
    | succ t =>
      cases i with
      | zero =>
        simp [addSlice]
      | succ j =>
        simp only [addSlice, List.getD_cons_succ]
        rw [ih t j (by simp at hb; omega)]
        have hcond : (t ≤ j ∧ j < t + v.length) ↔
            (t + 1 ≤ j + 1 ∧ j + 1 < t + 1 + v.length) := by omega
        by_cases hc : t ≤ j ∧ j < t + v.length
        · rw [if_pos hc, if_pos (hcond.mp hc)]
          have : j - t = j + 1 - (t + 1) := by omega
          rw [this]
        · rw [if_neg hc, if_neg (fun hcc => hc (hcond.mpr hcc))]

theorem getD_append_zeros (b : List ℚ) (k i : ℕ) :
    (b ++ zeros k).getD i 0 = b.getD i 0 := by
  induction b generalizing i with
  | nil =>
    rw [List.nil_append, zeros_getD, List.getD_nil]
  | cons x bs ih =>
    cases i with
    | zero => simp
    | succ j =>
      simp only [List.cons_append, List.getD_cons_succ]
      exact ih j

theorem track_note_step_getD (rate : ℕ) (buf : List ℚ) (n : TNote) (i : ℕ) :
    (track_note_step rate buf n).getD i 0 = buf.getD i 0 + placed_at rate n i := by
  unfold track_note_step placed_at
  cases hr : n.rendered with
  | none => simp
  | some na =>
    dsimp only
    by_cases hfit : (truncQ (n.start_time * rate)).toNat + na.length ≤ buf.length
    · rw [if_pos hfit]
      exact addSlice_getD buf _ na i hfit
    · rw [if_neg hfit]
      rw [addSlice_getD _ _ na i
        (by rw [List.length_append, zeros_length]; omega)]
      rw [getD_append_zeros]

theorem track_fold_getD (rate : ℕ) (notes : List TNote) (buf : List ℚ) (i : ℕ) :
    (notes.foldl (track_note_step rate) buf).getD i 0 =
      buf.getD i 0 + (notes.map (fun n => placed_at rate n i)).sum := by
  induction notes generalizing buf with
  | nil => simp
  | cons n ns ih =>
    rw [List.foldl_cons, ih, track_note_step_getD]
    simp [add_assoc]

/-- C4 amended: every note's rendered segment is added, never overwritten,
into the track buffer at sample index int(startTime*sampleRate) -- the
truncation, not the rounding, of startTime*sampleRate -- so the buffer value
at every index is the sum over notes of their placed contributions;
overlapping notes therefore sum elementwise in the overlap region. -/
theorem C4_overlap_add_amended (rate : ℕ) (notes : List TNote) (i : ℕ) :
    (synthesize_track rate notes).getD i 0 =
      (notes.map (fun n => placed_at rate n i)).sum := by
  unfold synthesize_track
  by_cases h : notes.isEmpty
  · rw [if_pos h]
    rw [List.isEmpty_iff] at h
    subst h
    rw [zeros_getD]
    simp
  · rw [if_neg h, track_fold_getD, zeros_getD, zero_add]

/-- The note of the C4 counterexample: start time 0.8 s, duration 1 s, and a
one-sample rendered segment of value 5, at sample rate 2. -/
def c4_note : TNote := ⟨4/5, 1, some [5]⟩

/-- C4 counterexample: with sample rate 2 and start time 0.8 s the code
places the segment at index int(1.6) = 1, not round(1.6) = 2: the buffer
comes out [0, 5, 0], and index 2 -- where the claim puts the segment --
holds 0. -/
theorem C4_counterexample :
    synthesize_track 2 [c4_note] = [0, 5, 0] ∧
    round ((4 : ℚ)/5 * 2) = 2 ∧
    (synthesize_track 2 [c4_note]).getD 2 0 = 0 := by
  have hidx : truncQ ((4 : ℚ)/5 * ((2 : ℕ) : ℚ)) = 1 := by
    rw [truncQ, if_pos (by norm_num)]
    exact Int.floor_eq_iff.mpr (by norm_num)
  have hdur : truncQ (((4 : ℚ)/5 + 1) * ((2 : ℕ) : ℚ)) = 3 := by
    rw [truncQ, if_pos (by norm_num)]
    exact Int.floor_eq_iff.mpr (by norm_num)
  have hmain : synthesize_track 2 [c4_note] = [0, 5, 0] := by
    unfold synthesize_track track_duration_of track_note_step c4_note
    simp only [List.isEmpty_cons, List.map_cons, List.map_nil, List.foldl_cons,
      List.foldl_nil, Bool.false_eq_true, if_false]
    rw [hdur, hidx]
    norm_num [zeros, addSlice, addOnto, List.replicate_succ]
  refine ⟨hmain, ?_, ?_⟩
  · rw [round_eq]
    exact Int.floor_eq_iff.mpr (by norm_num)
  · rw [hmain]
    rfl

end PyUTAU
